import Mathlib

/-!
Verification of the UIGen repository's core behaviours against its
natural-language specification.

Part 1 embeds `src/components/chat/ToolCallBadge.tsx` (present in the
repository): the pure message function `getToolCallMessage` and the
badge's completed/in-progress rendering decision.

Part 2 embeds the Virtual File System, the Import Resolver and the
Module Graph Assembler.  Their implementation files
(`src/lib/file-system.ts`, `src/lib/transform/jsx-transformer.ts`,
`src/lib/tools/file-manager.ts`) are not among the repository files
available here, so those definitions are modelled from the
specification's words (each such definition says so in its doc
comment).
-/

/-! ## Part 1: ToolCallBadge.tsx -/

/-- The `state` field of a tool invocation: `"partial-call" | "call" | "result"`
(`ToolCallBadge.tsx`, line 14). -/
inductive ToolState where
  | partCall
  | call
  | result
deriving DecidableEq

/-- A JavaScript runtime value, as far as the badge inspects one: only its
truthiness is ever consulted (`toolInvocation.result` is `unknown`). -/
inductive JsValue where
  | str (s : String)
  | boolean (b : Bool)
  | num (n : Int)
  | obj
  | null
deriving DecidableEq

/-- JavaScript truthiness of a value: empty string, `false`, `0` and `null`
are falsy, everything else truthy. -/
def JsValue.truthy : JsValue → Bool
  | .str s => s != ""
  | .boolean b => b
  | .num n => n != 0
  | .obj => true
  | .null => false

/-- The `args` object of a tool invocation (`ToolCallBadge.tsx`, lines 8-13):
`command?: string; path?: string; new_path?: string; [key: string]: unknown`.
Absent optional fields are `none`; `extra` carries the index-signature rest. -/
structure ToolArgs where
  command : Option String
  path : Option String
  new_path : Option String
  extra : List (String × JsValue)
deriving DecidableEq

/-- A `ToolInvocation` (`ToolCallBadge.tsx`, lines 5-16). `result` is `none`
when the field is absent. -/
structure ToolInvocation where
  toolCallId : String
  toolName : String
  args : ToolArgs
  state : ToolState
  result : Option JsValue
deriving DecidableEq

/-- `getToolCallMessage` (`ToolCallBadge.tsx`, lines 22-60), translated
clause for clause.  `args.path || ""` yields `""` both when `path` is
absent and when it is the (falsy) empty string, which is exactly
`(args.path.getD "")` since the empty string maps to itself. -/
def getToolCallMessage (t : ToolInvocation) : String :=
  if t.toolName = "str_replace_editor" then
    let path := t.args.path.getD ""
    match t.args.command with
    | some "create" => "Creating " ++ path
    | some "view" => "Viewing " ++ path
    | some "str_replace" => "Editing " ++ path
    | some "insert" => "Editing " ++ path
    | some "undo_edit" => "Attempting undo"
    | _ => "Processing file"
  else if t.toolName = "file_manager" then
    let path := t.args.path.getD ""
    match t.args.command with
    | some "rename" => "Renaming " ++ path
    | some "delete" => "Deleting " ++ path
    | _ => "Managing file"
  else
    t.toolName

/-- Which indicator the badge renders: the green completed dot or the
spinning loader. -/
inductive Indicator where
  | greenDot
  | spinner
deriving DecidableEq

/-- What the `ToolCallBadge` component renders: one indicator and one
message span (both branches show the same `message`). -/
structure BadgeView where
  indicator : Indicator
  message : String
deriving DecidableEq

/-- `isComplete` (`ToolCallBadge.tsx`, line 64):
`toolInvocation.state === "result" && toolInvocation.result` — the state
must be `result` and the `result` field present and truthy. -/
def isComplete (t : ToolInvocation) : Bool :=
  match t.state, t.result with
  | ToolState.result, some v => v.truthy
  | _, _ => false

/-- The `ToolCallBadge` component (`ToolCallBadge.tsx`, lines 62-81) as a
pure view function: green dot when complete, spinner otherwise, the
message from `getToolCallMessage` in both variants. -/
def ToolCallBadge (t : ToolInvocation) : BadgeView :=
  { indicator := if isComplete t then Indicator.greenDot else Indicator.spinner
    message := getToolCallMessage t }

/-! ## Part 2: Virtual File System (modelled from the spec) -/

/-- Slash character, used as the path separator. -/
def slash : Char := '/'

/-- Split a character list on `/`, returning the raw segments (empty
segments included, as `String.split` on the separator would). -/
def splitSlash : List Char → List String
  | [] => [""]
  | c :: rest =>
    let r := splitSlash rest
    if c = slash then "" :: r
    else
      match r with
      | [] => [String.mk [c]]
      | s :: tail => String.mk (c :: s.data) :: tail

/-- Modelled from the spec: one pass of path normalization over raw
segments (§4.1: collapse `./`, resolve `../` against the path's own
directory chain, `..` that would escape the root is unresolvable and
fails).  `acc` is the chain of resolved segments so far. -/
def segsOf : List String → List String → Option (List String)
  | acc, [] => some acc
  | acc, s :: rest =>
    if s = "" ∨ s = "." then segsOf acc rest
    else if s = ".." then
      match acc with
      | [] => none
      | _ => segsOf acc.dropLast rest
    else segsOf (acc ++ [s]) rest

/-- Modelled from the spec: the normalized segment chain of a path, or
`none` when the path escapes the root via an unresolvable `..`. -/
def pathSegs (p : String) : Option (List String) :=
  segsOf [] (splitSlash p.data)

/-- Modelled from the spec: render a segment chain as a normalized
absolute path — leading `/`, no trailing slash, the root is `/`. -/
def renderPath (segs : List String) : String :=
  match segs with
  | [] => "/"
  | _ => segs.foldl (fun acc s => acc ++ "/" ++ s) ""

/-- Modelled from the spec: full path normalization (§4.1), `none` when
the path is invalid. -/
def normalizePath (p : String) : Option String :=
  (pathSegs p).map renderPath

/-- Modelled from the spec: the ancestor directory paths of a segment
chain, shallowest first — every proper nonempty prefix of the chain. -/
def ancestorPaths (segs : List String) : List String :=
  (List.range segs.length).filterMap fun i =>
    if i = 0 then none else some (renderPath (segs.take i))

/-- Modelled from the spec (§3 FileNode): a node is a file with text
content or a directory.  Timestamps are informational only and carry no
behaviour, so they are omitted. -/
inductive FileNode where
  | file (content : String)
  | directory
deriving DecidableEq

/-- Modelled from the spec (§3): a VirtualFileSystem is a mapping from
normalized absolute path to node, kept here as an ordered association
list (serialization is an ordered sequence of pairs). -/
structure VirtualFileSystem where
  nodes : List (String × FileNode)
deriving DecidableEq

/-- Modelled from the spec (§7): the VirtualFileSystem layer's error
kinds. -/
inductive FsError where
  | invalidPath
  | notFound
  | alreadyExists
  | pathIsDirectory
  | notDirectory
  | corruptSnapshot
deriving DecidableEq

/-- Look one path up in the mapping (paths are normalized before lookup,
so keys are compared verbatim). -/
def lookupNode (fs : VirtualFileSystem) (p : String) : Option FileNode :=
  fs.nodes.lookup p

/-- `exists(path)` of §4.1: boolean, never fails. -/
def pathExists (fs : VirtualFileSystem) (p : String) : Bool :=
  (lookupNode fs p).isSome

/-- No key occurs twice. -/
def nodupKeys : List String → Bool
  | [] => true
  | x :: xs => (!xs.contains x) && nodupKeys xs

/-- Every key is already in normalized form (§3: all paths are
normalized before lookup or insertion). -/
def normalizedKeys (ns : List (String × FileNode)) : Bool :=
  ns.all fun pr => normalizePath pr.1 == some pr.1

/-- Every node's ancestor directories exist as directory nodes in the
same mapping (§3 invariant). -/
def ancestorsOk (ns : List (String × FileNode)) : Bool :=
  ns.all fun pr =>
    match pathSegs pr.1 with
    | some segs => (ancestorPaths segs).all fun a => ns.lookup a == some FileNode.directory
    | none => false

/-- Modelled from the spec (§3): the VirtualFileSystem's well-formedness
invariants as one decidable check. -/
def wfFs (fs : VirtualFileSystem) : Bool :=
  normalizedKeys fs.nodes && nodupKeys (fs.nodes.map Prod.fst) && ancestorsOk fs.nodes

/-- `serialize()` of §4.1: the ordered sequence of `(path, node)` pairs. -/
def serialize (fs : VirtualFileSystem) : List (String × FileNode) :=
  fs.nodes

/-- Modelled from the spec (§4.1 `deserialize`): reconstruct a file
system from a snapshot, normalizing every path and failing with
`CorruptSnapshot` if any path fails normalization or the resulting
mapping violates the invariants. -/
def deserialize (snapshot : List (String × FileNode)) :
    Except FsError VirtualFileSystem :=
  match snapshot.mapM (fun pr => (normalizePath pr.1).map fun q => (q, pr.2)) with
  | none => Except.error FsError.corruptSnapshot
  | some ns =>
    if wfFs ⟨ns⟩ then Except.ok ⟨ns⟩ else Except.error FsError.corruptSnapshot

/-- Insert a directory node at `a` when nothing exists there yet
(ancestor auto-creation). -/
def insertDirIfMissing (fs : VirtualFileSystem) (a : String) : VirtualFileSystem :=
  if pathExists fs a then fs else ⟨fs.nodes ++ [(a, FileNode.directory)]⟩

/-- Overwrite the file node at `p` when present, append it otherwise. -/
def setFile (fs : VirtualFileSystem) (p content : String) : VirtualFileSystem :=
  if pathExists fs p then
    ⟨fs.nodes.map fun pr => if pr.1 = p then (p, FileNode.file content) else pr⟩
  else
    ⟨fs.nodes ++ [(p, FileNode.file content)]⟩

/-- Modelled from the spec (§4.1 `create`): fails with `InvalidPath` if
the path normalizes to empty or escapes the root; creates all missing
ancestor directories; overwrites an existing file; fails with
`PathIsDirectory` if the target already exists as a directory. -/
def create (fs : VirtualFileSystem) (path content : String) :
    Except FsError VirtualFileSystem :=
  match pathSegs path with
  | none => Except.error FsError.invalidPath
  | some [] => Except.error FsError.invalidPath
  | some segs =>
    let p := renderPath segs
    match lookupNode fs p with
    | some FileNode.directory => Except.error FsError.pathIsDirectory
    | _ =>
      let fs1 := (ancestorPaths segs).foldl insertDirIfMissing fs
      Except.ok (setFile fs1 p content)

/-- `k` is a strict descendant path of `dir`: its characters extend
`dir`'s by a `/` and more. -/
def childOf (k dir : String) : Bool :=
  List.isPrefixOf (dir.data ++ [slash]) k.data

/-- The key rewrite rename applies to every node: the renamed node
itself moves to `newP`, descendants have the `oldP` segment-chain head
replaced by `newP`, everything else is untouched. -/
def renameKey (oldP newP k : String) : String :=
  if k = oldP then newP
  else if childOf k oldP then
    String.mk (newP.data ++ slash :: k.data.drop (oldP.data.length + 1))
  else k

/-- Modelled from the spec (§4.1 `rename`): fails with `NotFound` if
`oldPath` is absent, with `AlreadyExists` if `newPath` is occupied;
otherwise rewrites every descendant path by substituting the `oldPath`
head for `newPath`, in one step over the whole mapping (the pure
function returns a single new state, so no partial-rename state is ever
observable). -/
def rename (fs : VirtualFileSystem) (oldPath newPath : String) :
    Except FsError VirtualFileSystem :=
  match pathSegs oldPath, pathSegs newPath with
  | some oldSegs, some newSegs =>
    if oldSegs = [] ∨ newSegs = [] then Except.error FsError.invalidPath
    else
      let oldP := renderPath oldSegs
      let newP := renderPath newSegs
      if !(pathExists fs oldP) then Except.error FsError.notFound
      else if pathExists fs newP then Except.error FsError.alreadyExists
      else Except.ok ⟨fs.nodes.map fun pr => (renameKey oldP newP pr.1, pr.2)⟩
  | _, _ => Except.error FsError.invalidPath

/-! ## Part 2 continued: Import Resolver (modelled from the spec) -/

/-- `s` starts with `pre`, decided on the underlying character lists. -/
def strStarts (s pre : String) : Bool :=
  List.isPrefixOf pre.data s.data

/-- `s` ends with `suf`, decided on the underlying character lists. -/
def strEnds (s suf : String) : Bool :=
  List.isSuffixOf suf.data s.data

/-- Modelled from the spec (§4.3): the supported source extensions, in
the fixed probing priority order `.jsx`, `.tsx`, `.js`, `.ts`. -/
def extCandidates : List String :=
  [".jsx", ".tsx", ".js", ".ts"]

/-- Modelled from the spec (§4.3): extension probing — the path itself
if it exists, else each candidate extension in priority order (skipped
entirely when the path already carries a recognized extension). -/
def probe (fs : VirtualFileSystem) (p : String) : Option String :=
  if pathExists fs p then some p
  else if extCandidates.any (fun e => strEnds p e) then none
  else extCandidates.findSome? fun e =>
    if pathExists fs (p ++ e) then some (p ++ e) else none

/-- Modelled from the spec (§3, §4.3): the outcome of resolving one
specifier — a local VirtualFileSystem file, a CDN URL, or the
unresolved placeholder. -/
inductive Resolution where
  | localMod (path : String)
  | cdn (url : String)
  | unresolved
deriving DecidableEq

/-- Modelled from the spec (§4.3 rules 1-5 in order, and the CLAUDE.md
table): absolute `/…` and aliased `@/…` specifiers probe the virtual
file system; relative `./…`/`../…` specifiers resolve against the
directory of the importer; `react` and `react-dom` are pinned to one fixed,
explicitly-versioned URL; any other bare name maps to the esm.sh CDN;
a local probe that finds nothing is the unresolved placeholder. -/
def resolve (specifier importerPath : String) (fs : VirtualFileSystem) : Resolution :=
  if strStarts specifier "/" then
    match probe fs specifier with
    | some t => Resolution.localMod t
    | none => Resolution.unresolved
  else if strStarts specifier "@/" then
    match probe fs ("/" ++ String.mk (specifier.data.drop 2)) with
    | some t => Resolution.localMod t
    | none => Resolution.unresolved
  else if strStarts specifier "./" ∨ strStarts specifier "../" then
    match pathSegs importerPath with
    | some iSegs =>
      match segsOf iSegs.dropLast (splitSlash specifier.data) with
      | some segs =>
        match probe fs (renderPath segs) with
        | some t => Resolution.localMod t
        | none => Resolution.unresolved
      | none => Resolution.unresolved
    | none => Resolution.unresolved
  else if strStarts specifier "http://" ∨ strStarts specifier "https://" then
    Resolution.cdn specifier
  else if specifier = "react" then
    Resolution.cdn "https://esm.sh/react@19"
  else if specifier = "react-dom" then
    Resolution.cdn "https://esm.sh/react-dom@19"
  else
    Resolution.cdn ("https://esm.sh/" ++ specifier)

/-! ## Part 2 continued: Source Transformer's specifier extraction
(modelled from the spec) -/

/-- The two JavaScript string-quote characters (single and double
quote), written by code point. -/
def quoteChars : List Char := [Char.ofNat 39, Char.ofNat 34]

/-- Split a character list at every quote character. -/
def splitQuotes : List Char → List (List Char)
  | [] => [[]]
  | c :: rest =>
    let r := splitQuotes rest
    if quoteChars.contains c then [] :: r
    else
      match r with
      | [] => [[c]]
      | s :: tail => (c :: s) :: tail

/-- Split a character list into lines at every newline character. -/
def splitLines : List Char → List (List Char)
  | [] => [[]]
  | c :: rest =>
    let r := splitLines rest
    if c = Char.ofNat 10 then [] :: r
    else
      match r with
      | [] => [[c]]
      | s :: tail => (c :: s) :: tail

/-- Modelled from the spec (§4.2): the specifier an `import`/`export`
line references — the first quoted string on a line that starts (after
indentation) with the `import` or `export` keyword.  The real
transformer (Babel, absent from the available sources) parses the
module syntax; this model reads the static import lines the claims'
scenarios use. -/
def lineSpec (line : List Char) : Option String :=
  let t := line.dropWhile fun c => c = ' '
  if List.isPrefixOf "import".data t ∨ List.isPrefixOf "export".data t then
    match splitQuotes t with
    | _ :: spec :: _ :: _ => some (String.mk spec)
    | _ => none
  else none

/-- Modelled from the spec (§4.2): collect every static import/export
specifier appearing in the file, in source order, deduplicated by
specifier text. -/
def extractSpecifiers (src : String) : List String :=
  ((splitLines src.data).filterMap lineSpec).foldl
    (fun acc s => if acc.contains s then acc else acc ++ [s]) []

/-! ## Part 2 continued: Module Graph Assembler (modelled from the spec) -/

/-- Modelled from the spec (§3): one module-registry entry — the
transformed local module for a resolved path, an external URL, or the
placeholder substituted for an unresolved import. -/
inductive RegEntry where
  | module (sourcePath : String)
  | externalUrl (url : String)
  | placeholder
deriving DecidableEq

/-- Modelled from the spec (§4.4): the assembler's build state — the
visited-set keyed by normalized path, the paths transformed so far (each
at most once per build), the specifier-keyed registry, the non-fatal
diagnostics for unresolved imports, and the aggregated style texts. -/
structure BuildState where
  visited : List String
  transformed : List String
  registry : List (String × RegEntry)
  diagnostics : List String
  styles : List String
deriving DecidableEq

/-- Install a registry entry for a specifier unless that specifier is
already registered (the registry is keyed by specifier). -/
def addEntry (st : BuildState) (s : String) (e : RegEntry) : BuildState :=
  if (st.registry.map Prod.fst).contains s then st
  else { st with registry := st.registry ++ [(s, e)] }

/-- A style file, aggregated rather than transformed (CLAUDE.md: the
CSS text is extracted and injected as style tags). -/
def isStyleFile (p : String) : Bool :=
  strEnds p ".css"

/-- Process one resolved specifier during the walk: local targets are
registered and recursed into, external URLs are leaves, unresolved
specifiers get a placeholder entry and a non-fatal diagnostic (recorded
once per specifier). -/
def stepSpec (fs : VirtualFileSystem)
    (walk : String → BuildState → BuildState) (path : String)
    (st : BuildState) (s : String) : BuildState :=
  match resolve s path fs with
  | Resolution.localMod t => walk t (addEntry st s (RegEntry.module t))
  | Resolution.cdn url => addEntry st s (RegEntry.externalUrl url)
  | Resolution.unresolved =>
    if (st.registry.map Prod.fst).contains s then st
    else { st with
            registry := st.registry ++ [(s, RegEntry.placeholder)]
            diagnostics := st.diagnostics ++ [s] }

/-- Modelled from the spec (§4.4): the reachability walk.  A visited
path is never expanded twice; an unvisited path is marked visited, its
file transformed once, and every specifier the transformer collected is
resolved and processed.  `fuel` bounds the recursion depth (the caller
passes more fuel than the file system has nodes, so the walk's
visited-set, not the fuel, is what stops a cycle). -/
def walkFile (fs : VirtualFileSystem) : Nat → String → BuildState → BuildState
  | 0, _, st => st
  | fuel + 1, path, st =>
    if st.visited.contains path then st
    else
      let st1 := { st with visited := path :: st.visited }
      match lookupNode fs path with
      | some (FileNode.file content) =>
        if isStyleFile path then { st1 with styles := st1.styles ++ [content] }
        else
          let st2 := { st1 with transformed := st1.transformed ++ [path] }
          (extractSpecifiers content).foldl (stepSpec fs (walkFile fs fuel) path) st2
      | _ => st1

/-- Modelled from the spec (§4.4 `build`): normalize the entry path,
seed the registry with the entry module keyed by its own path, and walk
the graph from there.  The build is total: unresolved imports degrade
into placeholder entries plus diagnostics instead of failing. -/
def build (fs : VirtualFileSystem) (entry : String) : BuildState :=
  let p := match pathSegs entry with
    | some segs => renderPath segs
    | none => entry
  walkFile fs (fs.nodes.length + 2) p
    { visited := []
      transformed := []
      registry := [(p, RegEntry.module p)]
      diagnostics := []
      styles := [] }

/-- The build-state invariant the walk maintains: every diagnostic has
a placeholder registry entry, no path is transformed twice, and only
visited paths are transformed. -/
def WalkInv (st : BuildState) : Prop :=
  (∀ s ∈ st.diagnostics, (s, RegEntry.placeholder) ∈ st.registry) ∧
  st.transformed.Nodup ∧
  (∀ p ∈ st.transformed, p ∈ st.visited)

/-! ## Theorems: claims about ToolCallBadge.tsx -/

/-- C1, counterexample: the claim as stated is false on the code.  A
`file_manager` invocation whose command is the documented name
`rename_file` (with a path) is answered with the generic fallback
`Managing file`, not with `Renaming /old.jsx`: `getToolCallMessage`
matches the command strings `rename` and `delete`, not `rename_file`
and `delete_file`. -/
theorem c1_counterexample :
    getToolCallMessage
      ⟨"8", "file_manager",
        ⟨some "rename_file", some "/old.jsx", some "/new.jsx", []⟩,
        ToolState.call, none⟩ = "Managing file" ∧
    "Managing file" ≠ "Renaming /old.jsx" := by
  exact ⟨rfl, by decide⟩

/-- C1, amended: the command strings `getToolCallMessage` recognizes for
the `file_manager` tool are `rename` and `delete` (as the component's
own test suite exercises them); for every invocation carrying one of
those commands with path `p`, the function returns the specific message
for that command rather than the generic fallback. -/
theorem c1_amended_file_manager_messages :
    (∀ (t : ToolInvocation) (p : String), t.toolName = "file_manager" →
      t.args.command = some "rename" → t.args.path = some p →
      getToolCallMessage t = "Renaming " ++ p) ∧
    (∀ (t : ToolInvocation) (p : String), t.toolName = "file_manager" →
      t.args.command = some "delete" → t.args.path = some p →
      getToolCallMessage t = "Deleting " ++ p) := by
  constructor
  · intro t p h1 h2 h3
    simp [getToolCallMessage, h1, h2, h3]
  · intro t p h1 h2 h3
    simp [getToolCallMessage, h1, h2, h3]

/-- C1, witness: concrete `rename` and `delete` invocations receive
their specific messages. -/
theorem c1_witness :
    getToolCallMessage
      ⟨"8", "file_manager",
        ⟨some "rename", some "/old.jsx", some "/new.jsx", []⟩,
        ToolState.call, none⟩ = "Renaming /old.jsx" ∧
    getToolCallMessage
      ⟨"9", "file_manager", ⟨some "delete", some "/temp.jsx", none, []⟩,
        ToolState.call, none⟩ = "Deleting /temp.jsx" := by
  constructor
  · exact c1_amended_file_manager_messages.1 _ "/old.jsx" rfl rfl rfl
  · exact c1_amended_file_manager_messages.2 _ "/temp.jsx" rfl rfl rfl

/-- C8: the full message table of `getToolCallMessage` for the
`str_replace_editor` tool — `Creating`/`Viewing`/`Editing` with the
path (`args.path`, or the empty string when absent), `Attempting undo`
ignoring the path, `Processing file` for any other command — and the
fallthrough returning the tool name itself for any other tool. -/
theorem c8_message_table :
    (∀ t : ToolInvocation, t.toolName = "str_replace_editor" →
      t.args.command = some "create" →
      getToolCallMessage t = "Creating " ++ t.args.path.getD "") ∧
    (∀ t : ToolInvocation, t.toolName = "str_replace_editor" →
      t.args.command = some "view" →
      getToolCallMessage t = "Viewing " ++ t.args.path.getD "") ∧
    (∀ t : ToolInvocation, t.toolName = "str_replace_editor" →
      t.args.command = some "str_replace" →
      getToolCallMessage t = "Editing " ++ t.args.path.getD "") ∧
    (∀ t : ToolInvocation, t.toolName = "str_replace_editor" →
      t.args.command = some "insert" →
      getToolCallMessage t = "Editing " ++ t.args.path.getD "") ∧
    (∀ t : ToolInvocation, t.toolName = "str_replace_editor" →
      t.args.command = some "undo_edit" →
      getToolCallMessage t = "Attempting undo") ∧
    (∀ t : ToolInvocation, t.toolName = "str_replace_editor" →
      t.args.command ≠ some "create" → t.args.command ≠ some "view" →
      t.args.command ≠ some "str_replace" → t.args.command ≠ some "insert" →
      t.args.command ≠ some "undo_edit" →
      getToolCallMessage t = "Processing file") ∧
    (∀ t : ToolInvocation, t.toolName ≠ "str_replace_editor" →
      t.toolName ≠ "file_manager" → getToolCallMessage t = t.toolName) := by
  refine ⟨?_, ?_, ?_, ?_, ?_, ?_, ?_⟩
  · intro t h1 h2; simp [getToolCallMessage, h1, h2]
  · intro t h1 h2; simp [getToolCallMessage, h1, h2]
  · intro t h1 h2; simp [getToolCallMessage, h1, h2]
  · intro t h1 h2; simp [getToolCallMessage, h1, h2]
  · intro t h1 h2; simp [getToolCallMessage, h1, h2]
  · intro t h1 h2 h3 h4 h5 h6
    simp only [getToolCallMessage, h1, if_pos]
  · intro t h1 h2; simp [getToolCallMessage, h1, h2]

/-- C8, witness: each row of the table at a concrete invocation,
including a missing path, an unknown command and an unknown tool. -/
theorem c8_witness :
    getToolCallMessage
      ⟨"1", "str_replace_editor", ⟨some "create", some "/App.jsx", none, []⟩,
        ToolState.call, none⟩ = "Creating /App.jsx" ∧
    getToolCallMessage
      ⟨"2", "str_replace_editor", ⟨some "view", some "/a.tsx", none, []⟩,
        ToolState.call, none⟩ = "Viewing /a.tsx" ∧
    getToolCallMessage
      ⟨"3", "str_replace_editor", ⟨some "str_replace", some "/App.jsx", none, []⟩,
        ToolState.call, none⟩ = "Editing /App.jsx" ∧
    getToolCallMessage
      ⟨"4", "str_replace_editor", ⟨some "insert", none, none, []⟩,
        ToolState.call, none⟩ = "Editing " ∧
    getToolCallMessage
      ⟨"5", "str_replace_editor", ⟨some "undo_edit", none, none, []⟩,
        ToolState.call, none⟩ = "Attempting undo" ∧
    getToolCallMessage
      ⟨"12", "str_replace_editor", ⟨some "unknown_command", some "/t.jsx", none, []⟩,
        ToolState.call, none⟩ = "Processing file" ∧
    getToolCallMessage
      ⟨"14", "unknown_tool", ⟨none, none, none, []⟩,
        ToolState.call, none⟩ = "unknown_tool" := by
  refine ⟨?_, ?_, ?_, ?_, ?_, ?_, ?_⟩
  · exact c8_message_table.1 _ rfl rfl
  · exact c8_message_table.2.1 _ rfl rfl
  · exact c8_message_table.2.2.1 _ rfl rfl
  · exact c8_message_table.2.2.2.1 _ rfl rfl
  · exact c8_message_table.2.2.2.2.1 _ rfl rfl
  · exact c8_message_table.2.2.2.2.2.1 _ rfl (by decide) (by decide) (by decide)
      (by decide) (by decide)
  · exact c8_message_table.2.2.2.2.2.2 _ (by decide) (by decide)

/-- C9: the badge renders the green completed dot exactly when the
invocation's state is `result` and its `result` field is present and
truthy; in every other case it renders the spinner, and the message
text shown is the same in both variants. -/
theorem c9_badge_indicator (t : ToolInvocation) :
    ((ToolCallBadge t).indicator = Indicator.greenDot ↔
      t.state = ToolState.result ∧ ∃ v, t.result = some v ∧ v.truthy = true) ∧
    ((ToolCallBadge t).indicator = Indicator.greenDot ∨
      (ToolCallBadge t).indicator = Indicator.spinner) ∧
    (ToolCallBadge t).message = getToolCallMessage t := by
  obtain ⟨id, name, args, state, result⟩ := t
  refine ⟨?_, ?_, rfl⟩
  · cases state <;> cases result <;>
      first
        | (rename_i v
           cases hv : v.truthy <;> simp [ToolCallBadge, isComplete, hv])
        | simp [ToolCallBadge, isComplete]
  · by_cases h : isComplete ⟨id, name, args, state, result⟩ = true <;>
      simp [ToolCallBadge, h]

/-- C10: `getToolCallMessage` is a function of `(toolName, args.command,
args.path)` alone — two invocations agreeing on those three fields get
the identical message, whatever their `toolCallId`, `state`, `result`,
`args.new_path` or other `args` entries. -/
theorem c10_message_noninterference (t1 t2 : ToolInvocation)
    (hName : t1.toolName = t2.toolName)
    (hCmd : t1.args.command = t2.args.command)
    (hPath : t1.args.path = t2.args.path) :
    getToolCallMessage t1 = getToolCallMessage t2 := by
  simp only [getToolCallMessage, hName, hCmd, hPath]

/-- C10, witness: two invocations differing in id, state, result,
`new_path` and extra argument entries — but agreeing on the three
inputs — produce the same message. -/
theorem c10_witness :
    getToolCallMessage
      ⟨"1", "str_replace_editor", ⟨some "create", some "/App.jsx", none, []⟩,
        ToolState.call, none⟩ =
    getToolCallMessage
      ⟨"2", "str_replace_editor",
        ⟨some "create", some "/App.jsx", some "/x", [("k", JsValue.null)]⟩,
        ToolState.result, some (JsValue.str "ok")⟩ ∧
    (⟨"1", "str_replace_editor", ⟨some "create", some "/App.jsx", none, []⟩,
        ToolState.call, none⟩ : ToolInvocation) ≠
      ⟨"2", "str_replace_editor",
        ⟨some "create", some "/App.jsx", some "/x", [("k", JsValue.null)]⟩,
        ToolState.result, some (JsValue.str "ok")⟩ := by
  exact ⟨c10_message_noninterference _ _ rfl rfl rfl, by decide⟩

/-! ## Theorems: Virtual File System -/

/-- `mapM` over `Option` is the identity on a list whose every element
is fixed by the function. -/
theorem mapM_fixed {α : Type} (f : α → Option α) :
    ∀ l : List α, (∀ a ∈ l, f a = some a) → l.mapM f = some l
  | [], _ => rfl
  | a :: l, h => by
    have ha := h a (List.mem_cons_self a l)
    have hl := mapM_fixed f l fun x hx => h x (List.mem_cons_of_mem a hx)
    rw [List.mapM_cons, ha, hl]
    rfl

/-- C2: serialization round-trips.  For every well-formed
VirtualFileSystem, `deserialize (serialize fs)` succeeds and yields a
file system with the same node at every path — hence the same path set,
the same directory set and the same content at every file path. -/
theorem c2_serialize_roundtrip (fs : VirtualFileSystem) (h : wfFs fs = true) :
    ∃ fs', deserialize (serialize fs) = Except.ok fs' ∧
      ∀ p, lookupNode fs' p = lookupNode fs p := by
  have hnorm : normalizedKeys fs.nodes = true := by
    have hw := h
    unfold wfFs at hw
    simp only [Bool.and_eq_true] at hw
    exact hw.1.1
  have hmap : fs.nodes.mapM
      (fun pr => (normalizePath pr.1).map fun q => (q, pr.2)) = some fs.nodes := by
    apply mapM_fixed
    intro pr hpr
    have hb := List.all_eq_true.mp hnorm pr hpr
    have heq : normalizePath pr.1 = some pr.1 := beq_iff_eq.mp hb
    rw [heq]
    rfl
  refine ⟨fs, ?_, fun p => rfl⟩
  unfold deserialize serialize
  rw [hmap]
  simp [h]

/-- C2, witness: the round-trip at a concrete two-node file system. -/
theorem c2_witness :
    wfFs ⟨[("/a", FileNode.directory), ("/a/b.jsx", FileNode.file "hi")]⟩ = true ∧
    ∃ fs', deserialize (serialize
        ⟨[("/a", FileNode.directory), ("/a/b.jsx", FileNode.file "hi")]⟩) =
          Except.ok fs' ∧
      ∀ p, lookupNode fs' p =
        lookupNode ⟨[("/a", FileNode.directory), ("/a/b.jsx", FileNode.file "hi")]⟩ p :=
  ⟨by decide, c2_serialize_roundtrip _ (by decide)⟩

/-- Looking a key up after appending one pair: the original binding wins
when present, the appended pair answers only for its own key. -/
theorem lookup_append_pair (l : List (String × FileNode)) (k : String)
    (v : FileNode) (a : String) :
    (l ++ [(k, v)]).lookup a =
      match l.lookup a with
      | some w => some w
      | none => if a = k then some v else none := by
  induction l with
  | nil =>
    by_cases h : a = k
    · subst h; simp [List.lookup]
    · have hb : (a == k) = false := beq_eq_false_iff_ne.mpr h
      simp [List.lookup, hb, h]
  | cons pr l ih =>
    obtain ⟨pk, pv⟩ := pr
    by_cases h : a = pk
    · subst h; simp [List.lookup]
    · have hb : (a == pk) = false := beq_eq_false_iff_ne.mpr h
      simp [List.lookup, hb, ih]

/-- What `insertDirIfMissing` does to any lookup: it creates the
directory exactly when asked about the inserted key and that key was
absent, and changes nothing else. -/
theorem lookup_insertDir (fs : VirtualFileSystem) (b a : String) :
    lookupNode (insertDirIfMissing fs b) a =
      if a = b ∧ lookupNode fs b = none then some FileNode.directory
      else lookupNode fs a := by
  unfold insertDirIfMissing pathExists
  rcases hb : lookupNode fs b with _ | w
  · simp only [hb, Option.isSome_none, Bool.false_eq_true, if_false]
    show lookupNode ⟨fs.nodes ++ [(b, FileNode.directory)]⟩ a = _
    have hl : lookupNode ⟨fs.nodes ++ [(b, FileNode.directory)]⟩ a =
        (fs.nodes ++ [(b, FileNode.directory)]).lookup a := rfl
    rw [hl, lookup_append_pair]
    by_cases hab : a = b
    · subst hab
      have ha' : fs.nodes.lookup a = none := hb
      simp [ha']
    · rcases h2 : fs.nodes.lookup a with _ | w2 <;>
        simp [lookupNode, hab, h2]
  · have hcond : ¬(a = b ∧ lookupNode fs b = none) := by
      rintro ⟨_, h0⟩
      rw [hb] at h0
      cases h0
    simp [hb, hcond]

/-- A present binding survives the whole ancestor-insertion fold. -/
theorem fold_insert_stable (as : List String) :
    ∀ (fs : VirtualFileSystem) (a : String) (v : FileNode),
      lookupNode fs a = some v →
      lookupNode (as.foldl insertDirIfMissing fs) a = some v := by
  induction as with
  | nil => intro fs a v h; exact h
  | cons b rest ih =>
    intro fs a v h
    have hstep : lookupNode (insertDirIfMissing fs b) a = some v := by
      rw [lookup_insertDir]
      by_cases hc : a = b ∧ lookupNode fs b = none
      · obtain ⟨hab, hbnone⟩ := hc
        subst hab
        rw [h] at hbnone
        cases hbnone
      · simp [hc, h]
    exact ih _ a v hstep

/-- After the ancestor-insertion fold, every listed path that started
absent (or already a directory) is a directory. -/
theorem fold_insert_dir (as : List String) :
    ∀ (fs : VirtualFileSystem) (a : String), a ∈ as →
      (lookupNode fs a = none ∨ lookupNode fs a = some FileNode.directory) →
      lookupNode (as.foldl insertDirIfMissing fs) a = some FileNode.directory := by
  induction as with
  | nil => intro fs a ha; cases ha
  | cons b rest ih =>
    intro fs a ha hdisj
    rcases List.mem_cons.mp ha with hab | harest
    · subst hab
      have h1 : lookupNode (insertDirIfMissing fs a) a = some FileNode.directory := by
        rw [lookup_insertDir]
        rcases hdisj with hnone | hdir
        · simp [hnone]
        · by_cases hc : a = a ∧ lookupNode fs a = none
          · simp [hc]
          · simp [hc, hdir]
      exact fold_insert_stable rest _ a _ h1
    · apply ih _ a harest
      rw [lookup_insertDir]
      by_cases hc : a = b ∧ lookupNode fs b = none
      · right; simp [hc]
      · simp [hc]; exact hdisj

/-- Overwriting key `p` in the mapping makes `p` answer with the new
file node. -/
theorem lookup_map_set (l : List (String × FileNode)) (p c : String)
    (h : (l.lookup p).isSome = true) :
    (l.map fun pr => if pr.1 = p then (p, FileNode.file c) else pr).lookup p
      = some (FileNode.file c) := by
  induction l with
  | nil => simp [List.lookup] at h
  | cons pr l ih =>
    obtain ⟨pk, pv⟩ := pr
    by_cases hk : pk = p
    · subst hk
      have hhead : (fun pr : String × FileNode =>
          if pr.1 = pk then (pk, FileNode.file c) else pr) (pk, pv)
            = (pk, FileNode.file c) := by simp
      simp only [List.map_cons, hhead]
      simp [List.lookup]
    · have hb : (p == pk) = false := beq_eq_false_iff_ne.mpr (Ne.symm hk)
      simp only [List.lookup, hb] at h
      have hhead : (fun pr : String × FileNode =>
          if pr.1 = p then (p, FileNode.file c) else pr) (pk, pv) = (pk, pv) := by
        simp [hk]
      simp only [List.map_cons, hhead]
      simpa [List.lookup, hb] using ih h

theorem lookup_map_set_other (l : List (String × FileNode)) (p c a : String)
    (h : a ≠ p) :
    (l.map fun pr => if pr.1 = p then (p, FileNode.file c) else pr).lookup a
      = l.lookup a := by
  induction l with
  | nil => rfl
  | cons pr l ih =>
    obtain ⟨pk, pv⟩ := pr
    by_cases hk : pk = p
    · subst hk
      have hb : (a == pk) = false := beq_eq_false_iff_ne.mpr h
      have hhead : (fun pr : String × FileNode =>
          if pr.1 = pk then (pk, FileNode.file c) else pr) (pk, pv)
            = (pk, FileNode.file c) := by simp
      simp only [List.map_cons, hhead]
      simp [List.lookup, hb, ih]
    · have hhead : (fun pr : String × FileNode =>
          if pr.1 = p then (p, FileNode.file c) else pr) (pk, pv) = (pk, pv) := by
        simp [hk]
      simp only [List.map_cons, hhead]
      by_cases hak : a = pk
      · subst hak
        simp [List.lookup]
      · have hb : (a == pk) = false := beq_eq_false_iff_ne.mpr hak
        simp [List.lookup, hb, ih]

theorem lookup_setFile_self (fs : VirtualFileSystem) (p c : String) :
    lookupNode (setFile fs p c) p = some (FileNode.file c) := by
  unfold setFile pathExists
  rcases hp : lookupNode fs p with _ | w
  · simp only [hp, Option.isSome_none, Bool.false_eq_true, if_false]
    show (fs.nodes ++ [(p, FileNode.file c)]).lookup p = _
    rw [lookup_append_pair]
    have hp' : fs.nodes.lookup p = none := hp
    simp [hp']
  · have hs : (lookupNode fs p).isSome = true := by rw [hp]; rfl
    simp only [hp, Option.isSome_some, if_true]
    exact lookup_map_set fs.nodes p c hs

theorem lookup_setFile_other (fs : VirtualFileSystem) (p c a : String)
    (h : a ≠ p) : lookupNode (setFile fs p c) a = lookupNode fs a := by
  unfold setFile pathExists
  rcases hp : lookupNode fs p with _ | w
  · simp only [hp, Option.isSome_none, Bool.false_eq_true, if_false]
    show (fs.nodes ++ [(p, FileNode.file c)]).lookup a = _
    rw [lookup_append_pair]
    rcases h2 : fs.nodes.lookup a with _ | w2 <;> simp [lookupNode, h, h2]
  · simp only [hp, Option.isSome_some, if_true]
    exact lookup_map_set_other fs.nodes p c a h

/-- Each folded segment adds at least one character to the rendered
path. -/
theorem foldl_slash_length_le (l : List String) :
    ∀ a : String,
      a.data.length ≤ ((l.foldl (fun acc s => acc ++ "/" ++ s) a)).data.length := by
  induction l with
  | nil => intro a; exact le_refl _
  | cons s t ih =>
    intro a
    have h1 := ih (a ++ "/" ++ s)
    have h2 : (a ++ "/" ++ s).data.length = a.data.length + 1 + s.data.length := by
      simp [String.data_append]
      omega
    calc a.data.length ≤ (a ++ "/" ++ s).data.length := by omega
      _ ≤ _ := h1

theorem foldl_slash_length_lt (l : List String) (hl : l ≠ []) (a : String) :
    a.data.length < ((l.foldl (fun acc s => acc ++ "/" ++ s) a)).data.length := by
  cases l with
  | nil => exact absurd rfl hl
  | cons s t =>
    have h1 := foldl_slash_length_le t (a ++ "/" ++ s)
    have h2 : (a ++ "/" ++ s).data.length = a.data.length + 1 + s.data.length := by
      simp [String.data_append]
      omega
    show a.data.length < ((t.foldl (fun acc s => acc ++ "/" ++ s) (a ++ "/" ++ s))).data.length
    omega

theorem data_ne_nil_of_ne_empty (s : String) (h : s ≠ "") : s.data ≠ [] := by
  intro hd
  apply h
  cases s with
  | mk d => cases hd; rfl

theorem renderPath_extend_length (l t : List String) (ht : t ≠ [])
    (hs : ∀ s ∈ t, s ≠ "") :
    (renderPath l).data.length < (renderPath (l ++ t)).data.length := by
  cases l with
  | nil =>
    cases t with
    | nil => exact absurd rfl ht
    | cons s u =>
      have hsne : s ≠ "" := hs s (List.mem_cons_self s u)
      have hslen : 0 < s.data.length :=
        List.length_pos.mpr (data_ne_nil_of_ne_empty s hsne)
      have h1 := foldl_slash_length_le u ("" ++ "/" ++ s)
      have h2 : ("" ++ "/" ++ s).data.length = 1 + s.data.length := by
        simp [String.data_append]
        omega
      show ("/" : String).data.length <
        ((s :: u).foldl (fun acc x => acc ++ "/" ++ x) "").data.length
      have h3 : ((s :: u).foldl (fun acc x => acc ++ "/" ++ x) "")
          = u.foldl (fun acc x => acc ++ "/" ++ x) ("" ++ "/" ++ s) := rfl
      rw [h3]
      have h4 : ("/" : String).data.length = 1 := rfl
      omega
  | cons x xs =>
    have hlt := foldl_slash_length_lt t ht ((x :: xs).foldl (fun acc s => acc ++ "/" ++ s) "")
    have happ : ((x :: xs) ++ t).foldl (fun acc s => acc ++ "/" ++ s) ""
        = t.foldl (fun acc s => acc ++ "/" ++ s)
            ((x :: xs).foldl (fun acc s => acc ++ "/" ++ s) "") :=
      List.foldl_append _ _ _ _
    show ((x :: xs).foldl (fun acc s => acc ++ "/" ++ s) "").data.length <
      (renderPath ((x :: xs) ++ t)).data.length
    have hcons : (x :: xs) ++ t = x :: (xs ++ t) := rfl
    have hr : renderPath ((x :: xs) ++ t)
        = ((x :: xs) ++ t).foldl (fun acc s => acc ++ "/" ++ s) "" := by
      rw [hcons]
      rfl
    rw [hr, happ]
    exact hlt

theorem renderPath_take_ne (segs : List String) (hseg : ∀ s ∈ segs, s ≠ "")
    (i : Nat) (hi : i < segs.length) :
    renderPath (segs.take i) ≠ renderPath segs := by
  have hdrop : segs.drop i ≠ [] := by
    intro hd
    have := List.drop_eq_nil_iff.mp hd
    omega
  have hsub : ∀ s ∈ segs.drop i, s ≠ "" := fun s hsm =>
    hseg s (List.mem_of_mem_drop hsm)
  have hlt := renderPath_extend_length (segs.take i) (segs.drop i) hdrop hsub
  rw [List.take_append_drop] at hlt
  intro heq
  rw [heq] at hlt
  exact lt_irrefl _ hlt

/-- Every segment a successful normalization produces is nonempty. -/
theorem segsOf_nonempty :
    ∀ (l acc res : List String), segsOf acc l = some res →
      (∀ s ∈ acc, s ≠ "") → ∀ s ∈ res, s ≠ "" := by
  intro l
  induction l with
  | nil =>
    intro acc res h hacc
    have : acc = res := Option.some.inj h
    subst this
    exact hacc
  | cons s rest ih =>
    intro acc res h hacc
    by_cases h1 : s = "" ∨ s = "."
    · rw [show segsOf acc (s :: rest) = segsOf acc rest by
        simp only [segsOf]; rw [if_pos h1]] at h
      exact ih acc res h hacc
    · by_cases h2 : s = ".."
      · cases acc with
        | nil =>
          rw [show segsOf [] (s :: rest) = none by
            simp only [segsOf]; rw [if_neg h1, if_pos h2]] at h
          cases h
        | cons a as =>
          rw [show segsOf (a :: as) (s :: rest) = segsOf (a :: as).dropLast rest by
            simp only [segsOf]; rw [if_neg h1, if_pos h2]] at h
          exact ih _ res h fun x hx =>
            hacc x ((List.dropLast_prefix (a :: as)).subset hx)
      · rw [show segsOf acc (s :: rest) = segsOf (acc ++ [s]) rest by
          simp only [segsOf]; rw [if_neg h1, if_neg h2]] at h
        refine ih _ res h fun x hx => ?_
        rcases List.mem_append.mp hx with hxa | hxs
        · exact hacc x hxa
        · have hxe : x = s := List.mem_singleton.mp hxs
          subst hxe
          exact fun he => h1 (Or.inl he)

/-- Every segment of a normalized path is nonempty. -/
theorem pathSegs_nonempty (p : String) (segs : List String)
    (h : pathSegs p = some segs) : ∀ s ∈ segs, s ≠ "" :=
  segsOf_nonempty _ [] segs h (by simp)

/-- Membership in `ancestorPaths` names the rendered proper prefix it
came from. -/
theorem mem_ancestorPaths (segs : List String) (a : String)
    (h : a ∈ ancestorPaths segs) :
    ∃ i, i < segs.length ∧ i ≠ 0 ∧ a = renderPath (segs.take i) := by
  unfold ancestorPaths at h
  obtain ⟨i, hir, hf⟩ := List.mem_filterMap.mp h
  by_cases hi0 : i = 0
  · rw [if_pos hi0] at hf; cases hf
  · rw [if_neg hi0] at hf
    exact ⟨i, List.mem_range.mp hir, hi0, (Option.some.inj hf).symm⟩

/-- C3: `create` fails with `InvalidPath` on a path that escapes the
root or normalizes to empty, fails with `PathIsDirectory` when the
target is a directory, and otherwise succeeds, placing the file content
at the normalized path (overwriting a present file) and turning every
missing ancestor into a directory node. -/
theorem c3_create_spec :
    (∀ (fs : VirtualFileSystem) (path content : String),
      pathSegs path = none →
      create fs path content = Except.error FsError.invalidPath) ∧
    (∀ (fs : VirtualFileSystem) (path content : String),
      pathSegs path = some [] →
      create fs path content = Except.error FsError.invalidPath) ∧
    (∀ (fs : VirtualFileSystem) (path content : String) (segs : List String),
      pathSegs path = some segs → segs ≠ [] →
      lookupNode fs (renderPath segs) = some FileNode.directory →
      create fs path content = Except.error FsError.pathIsDirectory) ∧
    (∀ (fs : VirtualFileSystem) (path content : String) (segs : List String),
      pathSegs path = some segs → segs ≠ [] →
      lookupNode fs (renderPath segs) ≠ some FileNode.directory →
      ∃ fs', create fs path content = Except.ok fs' ∧
        lookupNode fs' (renderPath segs) = some (FileNode.file content) ∧
        ∀ a ∈ ancestorPaths segs, lookupNode fs a = none →
          lookupNode fs' a = some FileNode.directory) := by
  refine ⟨?_, ?_, ?_, ?_⟩
  · intro fs path content h
    simp [create, h]
  · intro fs path content h
    simp [create, h]
  · intro fs path content segs h hne hdir
    cases segs with
    | nil => exact absurd rfl hne
    | cons s rest =>
      simp [create, h, hdir]
  · intro fs path content segs h hne hdir
    cases segs with
    | nil => exact absurd rfl hne
    | cons s rest =>
      have hred : create fs path content =
          Except.ok (setFile
            ((ancestorPaths (s :: rest)).foldl insertDirIfMissing fs)
            (renderPath (s :: rest)) content) := by
        unfold create
        rw [h]
        rcases hl : lookupNode fs (renderPath (s :: rest)) with _ | n
        · simp [hl]
        · cases n with
          | file c => simp [hl]
          | directory => exact absurd hl hdir
      refine ⟨_, hred, lookup_setFile_self _ _ _, ?_⟩
      intro a ha hnone
      obtain ⟨i, hilen, hi0, haeq⟩ := mem_ancestorPaths _ a ha
      have hanep : a ≠ renderPath (s :: rest) := by
        rw [haeq]
        exact renderPath_take_ne _ (pathSegs_nonempty path _ h) i hilen
      rw [lookup_setFile_other _ _ _ _ hanep]
      exact fold_insert_dir _ fs a ha (Or.inl hnone)

/-- C3, witness: creating `/a/b/c.jsx` in the empty file system places
the file and creates `/a` and `/a/b` as directories. -/
theorem c3_witness :
    pathSegs "/a/b/c.jsx" = some ["a", "b", "c.jsx"] ∧
    (∃ fs', create ⟨[]⟩ "/a/b/c.jsx" "x" = Except.ok fs' ∧
      lookupNode fs' (renderPath ["a", "b", "c.jsx"]) = some (FileNode.file "x") ∧
      ∀ a ∈ ancestorPaths ["a", "b", "c.jsx"], lookupNode ⟨[]⟩ a = none →
        lookupNode fs' a = some FileNode.directory) :=
  ⟨rfl, c3_create_spec.2.2.2 ⟨[]⟩ "/a/b/c.jsx" "x" _ rfl (by decide) (by decide)⟩

/-- Two strings with equal character data are equal. -/
theorem string_data_inj {s t : String} (h : s.data = t.data) : s = t := by
  cases s
  cases t
  cases h
  rfl

/-- Unfold a `childOf` fact into the characters it asserts. -/
theorem childOf_elim {d p : String} (h : childOf d p = true) :
    ∃ t, d.data = p.data ++ slash :: t := by
  unfold childOf at h
  obtain ⟨t, ht⟩ := List.isPrefixOf_iff_prefix.mp h
  exact ⟨t, by rw [← ht]; simp⟩

/-- Build a `childOf` fact from the characters it asserts. -/
theorem childOf_intro {d p : String} (t : List Char)
    (h : d.data = p.data ++ slash :: t) : childOf d p = true := by
  unfold childOf
  exact List.isPrefixOf_iff_prefix.mpr ⟨t, by rw [h]; simp⟩

/-- A strict descendant is never the directory itself. -/
theorem childOf_ne {d p : String} (h : childOf d p = true) : d ≠ p := by
  obtain ⟨t, ht⟩ := childOf_elim h
  intro he
  subst he
  have hlen := congrArg List.length ht
  simp at hlen

/-- A pair in the mapping makes its key found. -/
theorem lookup_isSome_of_mem (l : List (String × FileNode)) (a : String)
    (b : FileNode) (h : (a, b) ∈ l) : (l.lookup a).isSome = true := by
  induction l with
  | nil => cases h
  | cons pr l ih =>
    obtain ⟨pk, pv⟩ := pr
    by_cases hk : a = pk
    · subst hk
      simp [List.lookup]
    · have hb : (a == pk) = false := beq_eq_false_iff_ne.mpr hk
      rcases List.mem_cons.mp h with he | hm
      · cases he; simp at hk
      · simp only [List.lookup, hb]
        exact ih hm

/-- A found key names a pair of the mapping. -/
theorem lookup_some_mem (l : List (String × FileNode)) (a : String)
    (b : FileNode) (h : l.lookup a = some b) : (a, b) ∈ l := by
  induction l with
  | nil => cases h
  | cons pr l ih =>
    obtain ⟨pk, pv⟩ := pr
    by_cases hk : a = pk
    · subst hk
      simp only [List.lookup, beq_self_eq_true] at h
      cases h
      exact List.mem_cons_self _ _
    · have hb : (a == pk) = false := beq_eq_false_iff_ne.mpr hk
      simp only [List.lookup, hb] at h
      exact List.mem_cons_of_mem _ (ih h)

/-- A key no pair carries is not found. -/
theorem lookup_none_of_all_ne (l : List (String × FileNode)) (a : String)
    (h : ∀ pr ∈ l, pr.1 ≠ a) : l.lookup a = none := by
  induction l with
  | nil => rfl
  | cons pr l ih =>
    obtain ⟨pk, pv⟩ := pr
    have hk : pk ≠ a := h (pk, pv) (List.mem_cons_self _ _)
    have hb : (a == pk) = false := beq_eq_false_iff_ne.mpr (Ne.symm hk)
    simp only [List.lookup, hb]
    exact ih fun pr hpr => h pr (List.mem_cons_of_mem _ hpr)

/-- The rename rewrite never maps any key onto a descendant of the
renamed directory, provided neither endpoint lies inside the other. -/
theorem renameKey_ne_of_child (oldP newP k d : String)
    (hON : childOf newP oldP = false) (hNO : childOf oldP newP = false)
    (hne : newP ≠ oldP) (hd : childOf d oldP = true) :
    renameKey oldP newP k ≠ d := by
  obtain ⟨rd, hrd⟩ := childOf_elim hd
  unfold renameKey
  by_cases hk1 : k = oldP
  · rw [if_pos hk1]
    intro he
    subst he
    rw [hd] at hON
    cases hON
  · rw [if_neg hk1]
    by_cases hk2 : childOf k oldP = true
    · rw [if_pos hk2]
      intro he
      have hdata := congrArg String.data he
      have hmk : (String.mk (newP.data ++ slash ::
          k.data.drop (oldP.data.length + 1))).data
            = newP.data ++ slash :: k.data.drop (oldP.data.length + 1) := rfl
      rw [hmk, hrd] at hdata
      rcases List.append_eq_append_iff.mp hdata with ⟨a', ha1, ha2⟩ | ⟨c', hc1, hc2⟩
      · cases a' with
        | nil =>
          rw [List.append_nil] at ha1
          exact hne (string_data_inj ha1).symm
        | cons c t =>
          have hinj : slash = c ∧ k.data.drop (oldP.data.length + 1)
              = t ++ slash :: rd := by
            have h' := ha2
            simp only [List.cons_append] at h'
            exact (List.cons.injEq _ _ _ _).mp h'
          obtain ⟨hcs, _⟩ := hinj
          subst hcs
          have : childOf oldP newP = true := childOf_intro t ha1
          rw [this] at hNO
          cases hNO
      · cases c' with
        | nil =>
          rw [List.append_nil] at hc1
          exact hne (string_data_inj hc1)
        | cons c t =>
          have hinj : slash = c ∧ rd = t ++ slash ::
              k.data.drop (oldP.data.length + 1) := by
            have h' := hc2
            simp only [List.cons_append] at h'
            exact (List.cons.injEq _ _ _ _).mp h'
          obtain ⟨hcs, _⟩ := hinj
          subst hcs
          have : childOf newP oldP = true := childOf_intro t hc1
          rw [this] at hON
          cases hON
    · rw [if_neg hk2]
      intro he
      subst he
      rw [hd] at hk2
      exact hk2 rfl

/-- The rename rewrite never maps any key back onto the old path. -/
theorem renameKey_ne_old (oldP newP k : String)
    (hNO : childOf oldP newP = false) (hne : newP ≠ oldP) :
    renameKey oldP newP k ≠ oldP := by
  unfold renameKey
  by_cases hk1 : k = oldP
  · rw [if_pos hk1]
    exact hne
  · rw [if_neg hk1]
    by_cases hk2 : childOf k oldP = true
    · rw [if_pos hk2]
      intro he
      have hdata := congrArg String.data he
      have : childOf oldP newP = true :=
        childOf_intro (k.data.drop (oldP.data.length + 1)) hdata.symm
      rw [this] at hNO
      cases hNO
    · rw [if_neg hk2]
      exact hk1

/-- C4: `rename` fails with `NotFound` when the old path is absent and
with `AlreadyExists` when the new path is occupied; renaming a
directory rewrites every descendant path, substituting the old prefix
with the new one, in the single state the operation returns — the
rewritten path exists there, the original does not, and the old path
itself is gone (no partial-rename state is observable). -/
theorem c4_rename_spec :
    (∀ (fs : VirtualFileSystem) (oldPath newPath : String)
        (oldSegs newSegs : List String),
      pathSegs oldPath = some oldSegs → pathSegs newPath = some newSegs →
      oldSegs ≠ [] → newSegs ≠ [] →
      pathExists fs (renderPath oldSegs) = false →
      rename fs oldPath newPath = Except.error FsError.notFound) ∧
    (∀ (fs : VirtualFileSystem) (oldPath newPath : String)
        (oldSegs newSegs : List String),
      pathSegs oldPath = some oldSegs → pathSegs newPath = some newSegs →
      oldSegs ≠ [] → newSegs ≠ [] →
      pathExists fs (renderPath oldSegs) = true →
      pathExists fs (renderPath newSegs) = true →
      rename fs oldPath newPath = Except.error FsError.alreadyExists) ∧
    (∀ (fs : VirtualFileSystem) (oldPath newPath : String)
        (oldSegs newSegs : List String),
      pathSegs oldPath = some oldSegs → pathSegs newPath = some newSegs →
      oldSegs ≠ [] → newSegs ≠ [] →
      pathExists fs (renderPath oldSegs) = true →
      pathExists fs (renderPath newSegs) = false →
      childOf (renderPath newSegs) (renderPath oldSegs) = false →
      childOf (renderPath oldSegs) (renderPath newSegs) = false →
      renderPath newSegs ≠ renderPath oldSegs →
      ∃ fs', rename fs oldPath newPath = Except.ok fs' ∧
        pathExists fs' (renderPath newSegs) = true ∧
        pathExists fs' (renderPath oldSegs) = false ∧
        ∀ d nd, (d, nd) ∈ fs.nodes →
          childOf d (renderPath oldSegs) = true →
          pathExists fs' (String.mk ((renderPath newSegs).data ++ slash ::
            d.data.drop ((renderPath oldSegs).data.length + 1))) = true ∧
          pathExists fs' d = false) := by
  refine ⟨?_, ?_, ?_⟩
  · intro fs oldPath newPath oldSegs newSegs h1 h2 hne1 hne2 hex
    simp [rename, h1, h2, hne1, hne2, hex]
  · intro fs oldPath newPath oldSegs newSegs h1 h2 hne1 hne2 hex1 hex2
    simp [rename, h1, h2, hne1, hne2, hex1, hex2]
  · intro fs oldPath newPath oldSegs newSegs h1 h2 hne1 hne2 hex1 hex2
      hON hNO hnp
    have hred : rename fs oldPath newPath = Except.ok
        ⟨fs.nodes.map fun pr =>
          (renameKey (renderPath oldSegs) (renderPath newSegs) pr.1, pr.2)⟩ := by
      simp [rename, h1, h2, hne1, hne2, hex1, hex2]
    refine ⟨_, hred, ?_, ?_, ?_⟩
    · obtain ⟨v, hv⟩ := Option.isSome_iff_exists.mp hex1
      have hmem : ((renderPath oldSegs), v) ∈ fs.nodes :=
        lookup_some_mem _ _ _ hv
      have hmem2 : ((renameKey (renderPath oldSegs) (renderPath newSegs)
          (renderPath oldSegs)), v) ∈ fs.nodes.map fun pr =>
            (renameKey (renderPath oldSegs) (renderPath newSegs) pr.1, pr.2) :=
        List.mem_map_of_mem _ hmem
      rw [show renameKey (renderPath oldSegs) (renderPath newSegs)
          (renderPath oldSegs) = renderPath newSegs from if_pos rfl] at hmem2
      exact lookup_isSome_of_mem _ _ _ hmem2
    · unfold pathExists lookupNode
      rw [lookup_none_of_all_ne]
      · rfl
      · intro pr hpr
        obtain ⟨pr0, hpr0, hpr0e⟩ := List.mem_map.mp hpr
        rw [← hpr0e]
        exact renameKey_ne_old _ _ _ hNO hnp
    · intro d nd hmem hchild
      constructor
      · have hmem2 : ((renameKey (renderPath oldSegs) (renderPath newSegs) d),
            nd) ∈ fs.nodes.map fun pr =>
              (renameKey (renderPath oldSegs) (renderPath newSegs) pr.1, pr.2) :=
          List.mem_map_of_mem _ hmem
        have hkey : renameKey (renderPath oldSegs) (renderPath newSegs) d =
            String.mk ((renderPath newSegs).data ++ slash ::
              d.data.drop ((renderPath oldSegs).data.length + 1)) := by
          unfold renameKey
          rw [if_neg (childOf_ne hchild), if_pos hchild]
        rw [hkey] at hmem2
        exact lookup_isSome_of_mem _ _ _ hmem2
      · unfold pathExists lookupNode
        rw [lookup_none_of_all_ne]
        · rfl
        · intro pr hpr
          obtain ⟨pr0, hpr0, hpr0e⟩ := List.mem_map.mp hpr
          rw [← hpr0e]
          exact renameKey_ne_of_child _ _ _ _ hON hNO hnp hchild

/-- C4, witness: renaming directory `/old` (containing `/old/x.jsx`) to
`/new` makes `/new/x.jsx` exist and leaves `/old/x.jsx` and `/old`
nonexistent. -/
theorem c4_witness :
    ∃ fs', rename ⟨[("/old", FileNode.directory),
        ("/old/x.jsx", FileNode.file "x")]⟩ "/old" "/new" = Except.ok fs' ∧
      pathExists fs' "/new/x.jsx" = true ∧
      pathExists fs' "/old/x.jsx" = false ∧
      pathExists fs' "/old" = false := by
  obtain ⟨fs', hok, hnew, hold, hdesc⟩ :=
    c4_rename_spec.2.2 ⟨[("/old", FileNode.directory),
        ("/old/x.jsx", FileNode.file "x")]⟩ "/old" "/new" ["old"] ["new"]
      rfl rfl (by decide) (by decide) (by decide) (by decide) (by decide)
      (by decide) (by decide)
  obtain ⟨himg, hgone⟩ := hdesc "/old/x.jsx" (FileNode.file "x")
    (by decide) (by decide)
  refine ⟨fs', hok, ?_, hgone, hold⟩
  have him : String.mk ((renderPath ["new"]).data ++ slash ::
      ("/old/x.jsx" : String).data.drop ((renderPath ["old"]).data.length + 1))
        = "/new/x.jsx" := by decide
  rw [him] at himg
  exact himg

/-! ## Theorems: Import Resolver -/

/-- C5: a bare package specifier — one matching none of the absolute,
aliased, relative or raw-URL forms and not a pinned package — resolves,
for every importer and every file-system snapshot, to the esm.sh CDN
URL built from the package name; and `react` and `react-dom` always
resolve to their one pinned, explicitly-versioned URL, whatever
the importer and snapshot. -/
theorem c5_resolver_cdn_and_pinned :
    (∀ (s importer : String) (fs : VirtualFileSystem),
      strStarts s "/" = false → strStarts s "@/" = false →
      strStarts s "./" = false → strStarts s "../" = false →
      strStarts s "http://" = false → strStarts s "https://" = false →
      s ≠ "react" → s ≠ "react-dom" →
      resolve s importer fs = Resolution.cdn ("https://esm.sh/" ++ s)) ∧
    (∀ (importer : String) (fs : VirtualFileSystem),
      resolve "react" importer fs = Resolution.cdn "https://esm.sh/react@19") ∧
    (∀ (importer : String) (fs : VirtualFileSystem),
      resolve "react-dom" importer fs =
        Resolution.cdn "https://esm.sh/react-dom@19") := by
  refine ⟨?_, ?_, ?_⟩
  · intro s importer fs h1 h2 h3 h4 h5 h6 h7 h8
    simp [resolve, h1, h2, h3, h4, h5, h6, h7, h8]
  · intro importer fs
    rfl
  · intro importer fs
    rfl

/-- C5, witness: `lucide-react` resolves to its constructed CDN URL,
and `react` to the pinned URL, from two different importers. -/
theorem c5_witness :
    resolve "lucide-react" "/App.jsx" ⟨[]⟩ =
      Resolution.cdn "https://esm.sh/lucide-react" ∧
    resolve "react" "/App.jsx" ⟨[]⟩ =
      Resolution.cdn "https://esm.sh/react@19" ∧
    resolve "react" "/components/Button.jsx"
        ⟨[("/react", FileNode.file "decoy")]⟩ =
      Resolution.cdn "https://esm.sh/react@19" := by
  refine ⟨?_, ?_, ?_⟩
  · exact c5_resolver_cdn_and_pinned.1 "lucide-react" "/App.jsx" ⟨[]⟩
      (by decide) (by decide) (by decide) (by decide) (by decide) (by decide)
      (by decide) (by decide)
  · exact c5_resolver_cdn_and_pinned.2.1 "/App.jsx" ⟨[]⟩
  · exact c5_resolver_cdn_and_pinned.2.1 "/components/Button.jsx" _

/-! ## Theorems: Module Graph Assembler -/

/-- A `contains` check that came back false refutes membership. -/
theorem not_mem_of_contains_false {l : List String} {a : String}
    (h : l.contains a = false) : a ∉ l := fun hm => by
  have h' : l.elem a = false := h
  rw [List.elem_eq_true_of_mem hm] at h'
  cases h'

/-- `addEntry` preserves the walk invariant: it only ever appends to the
registry. -/
theorem addEntry_inv (st : BuildState) (s : String) (e : RegEntry)
    (h : WalkInv st) : WalkInv (addEntry st s e) := by
  unfold addEntry
  by_cases hc : (st.registry.map Prod.fst).contains s = true
  · simp only [hc, if_true]
    exact h
  · rw [if_neg hc]
    refine ⟨?_, h.2.1, h.2.2⟩
    intro x hx
    exact List.mem_append_left _ (h.1 x hx)

/-- A step-preserved property survives a fold. -/
theorem foldl_inv {α : Type} (P : BuildState → Prop)
    (step : BuildState → α → BuildState)
    (hstep : ∀ st a, P st → P (step st a)) :
    ∀ (l : List α) (st : BuildState), P st → P (l.foldl step st) := by
  intro l
  induction l with
  | nil => intro st h; exact h
  | cons a t ih => intro st h; exact ih _ (hstep st a h)

/-- The reachability walk preserves the walk invariant, whatever the
fuel, start path and starting state. -/
theorem walkFile_inv (fs : VirtualFileSystem) :
    ∀ (fuel : Nat) (path : String) (st : BuildState),
      WalkInv st → WalkInv (walkFile fs fuel path st) := by
  intro fuel
  induction fuel with
  | zero => intro path st h; exact h
  | succ fuel ih =>
    intro path st h
    unfold walkFile
    rcases hv : st.visited.contains path with _ | _
    · rw [if_neg (by simp [hv])]
      have hst1 : WalkInv { st with visited := path :: st.visited } :=
        ⟨h.1, h.2.1, fun p hp => List.mem_cons_of_mem _ (h.2.2 p hp)⟩
      rcases hl : lookupNode fs path with _ | n
      · simpa [hl] using hst1
      · cases n with
        | directory => simpa [hl] using hst1
        | file content =>
          simp only [hl]
          by_cases hstyle : isStyleFile path = true
          · rw [if_pos hstyle]
            exact ⟨hst1.1, hst1.2.1, hst1.2.2⟩
          · rw [if_neg hstyle]
            have hnotin : path ∉ st.transformed := fun hm =>
              not_mem_of_contains_false hv (h.2.2 path hm)
            have hst2 : WalkInv { st with
                visited := path :: st.visited
                transformed := st.transformed ++ [path] } := by
              refine ⟨h.1, ?_, ?_⟩
              · rw [List.nodup_append]
                exact ⟨h.2.1, List.nodup_singleton path,
                  by simpa [List.disjoint_singleton] using hnotin⟩
              · intro p hp
                rcases List.mem_append.mp hp with hpo | hps
                · exact List.mem_cons_of_mem _ (h.2.2 p hpo)
                · rw [List.mem_singleton.mp hps]
                  exact List.mem_cons_self _ _
            apply foldl_inv WalkInv _ _ _ _ hst2
            intro st' a hP
            unfold stepSpec
            rcases resolve a path fs with t | url | _
            · exact ih t _ (addEntry_inv st' a _ hP)
            · exact addEntry_inv st' a _ hP
            · by_cases hc : (st'.registry.map Prod.fst).contains a = true
              · simp only [hc, if_true]
                exact hP
              · rw [if_neg hc]
                refine ⟨?_, hP.2.1, hP.2.2⟩
                intro x hx
                rcases List.mem_append.mp hx with hxo | hxs
                · exact List.mem_append_left _ (hP.1 x hxo)
                · rw [List.mem_singleton.mp hxs]
                  exact List.mem_append_right _ (List.mem_singleton_self _)
    · exact h

/-- C6: a build never fails on an unresolved import — `build` is total,
and every unresolved specifier it reports as a non-fatal diagnostic has
a placeholder registry entry.  Concretely, building `/App.jsx` whose
content imports the missing `./missing` succeeds with exactly one
diagnostic for `./missing` and a placeholder entry for it (next to the
entry module). -/
theorem c6_unresolved_placeholder :
    (∀ (fs : VirtualFileSystem) (entry s : String),
      s ∈ (build fs entry).diagnostics →
      (s, RegEntry.placeholder) ∈ (build fs entry).registry) ∧
    (∃ fs', create ⟨[]⟩ "/App.jsx" "import X from \"./missing\""
        = Except.ok fs' ∧
      (build fs' "/App.jsx").diagnostics = ["./missing"] ∧
      (build fs' "/App.jsx").registry =
        [("/App.jsx", RegEntry.module "/App.jsx"),
         ("./missing", RegEntry.placeholder)]) := by
  constructor
  · intro fs entry s hs
    have hinv : WalkInv (build fs entry) := by
      unfold build
      apply walkFile_inv
      exact ⟨fun x hx => absurd hx (List.not_mem_nil x), List.nodup_nil,
        fun p hp => absurd hp (List.not_mem_nil p)⟩
    exact hinv.1 s hs
  · exact ⟨⟨[("/App.jsx", FileNode.file "import X from \"./missing\"")]⟩,
      rfl, rfl, rfl⟩

/-- C6, witness: the general placeholder guarantee applied to the
concrete missing-import scenario. -/
theorem c6_witness :
    "./missing" ∈ (build
      ⟨[("/App.jsx", FileNode.file "import X from \"./missing\"")]⟩
      "/App.jsx").diagnostics ∧
    ("./missing", RegEntry.placeholder) ∈ (build
      ⟨[("/App.jsx", FileNode.file "import X from \"./missing\"")]⟩
      "/App.jsx").registry :=
  ⟨by decide, c6_unresolved_placeholder.1 _ "/App.jsx" "./missing" (by decide)⟩

/-- C7: one build never transforms the same resolved local file twice —
the visited-set stops a cycle at its second visit — and the two-file
cycle (`/A.jsx` imports `/B.jsx`, `/B.jsx` imports `/A.jsx`) builds to
completion with each file transformed exactly once and one registry
entry per specifier, every key distinct. -/
theorem c7_cycle_termination :
    (∀ (fs : VirtualFileSystem) (entry : String),
      (build fs entry).transformed.Nodup) ∧
    (build ⟨[("/A.jsx", FileNode.file "import B from \"./B.jsx\""),
             ("/B.jsx", FileNode.file "import A from \"./A.jsx\"")]⟩
        "/A.jsx").transformed = ["/A.jsx", "/B.jsx"] ∧
    (build ⟨[("/A.jsx", FileNode.file "import B from \"./B.jsx\""),
             ("/B.jsx", FileNode.file "import A from \"./A.jsx\"")]⟩
        "/A.jsx").registry =
      [("/A.jsx", RegEntry.module "/A.jsx"),
       ("./B.jsx", RegEntry.module "/B.jsx"),
       ("./A.jsx", RegEntry.module "/A.jsx")] ∧
    ((build ⟨[("/A.jsx", FileNode.file "import B from \"./B.jsx\""),
              ("/B.jsx", FileNode.file "import A from \"./A.jsx\"")]⟩
        "/A.jsx").registry.map Prod.fst).Nodup := by
  refine ⟨?_, rfl, rfl, by decide⟩
  intro fs entry
  have hinv : WalkInv (build fs entry) := by
    unfold build
    apply walkFile_inv
    exact ⟨fun x hx => absurd hx (List.not_mem_nil x), List.nodup_nil,
      fun p hp => absurd hp (List.not_mem_nil p)⟩
  exact hinv.2.1

/-- C9, witness: a completed invocation (state `result`, truthy result)
gets the green dot; the same invocation still in state `call` gets the
spinner. -/
theorem c9_witness :
    (ToolCallBadge ⟨"7", "str_replace_editor",
      ⟨some "create", some "/App.jsx", none, []⟩,
      ToolState.result, some (JsValue.str "Success")⟩).indicator
        = Indicator.greenDot ∧
    (ToolCallBadge ⟨"6", "str_replace_editor",
      ⟨some "create", some "/App.jsx", none, []⟩,
      ToolState.call, none⟩).indicator = Indicator.spinner := by
  constructor
  · exact (c9_badge_indicator _).1.mpr
      ⟨rfl, JsValue.str "Success", rfl, by decide⟩
  · rcases (c9_badge_indicator ⟨"6", "str_replace_editor",
        ⟨some "create", some "/App.jsx", none, []⟩,
        ToolState.call, none⟩).2.1 with hg | hs
    · obtain ⟨hst, _⟩ := (c9_badge_indicator _).1.mp hg
      exact absurd hst (by decide)
    · exact hs
